import Mathlib

/-!
Shallow embedding of the two notebooks of the `dynamical-systems`
repository (`LorenzEquations.ipynb` and `Bifurcations-checkpoint.ipynb`)
over exact rational arithmetic, together with theorems settling the
specification claims about them.

Python lists / 1-D numpy arrays are embedded as `List ℚ`; a Python slice
`l[a:b]` (with a non-negative start and a clamped end, as numpy clamps
out-of-range slice bounds) is `(l.take b).drop a`; fallible indexing
`l[i]` is `l[i]?`; elementwise arithmetic on arrays is `List.zipWith`.
-/

namespace DSys

/-- Python slice `l[a:b]` with both bounds already resolved to
non-negative clamped positions: take the first `b` elements and drop the
first `a` of those. -/
def slice (l : List ℚ) (a b : ℕ) : List ℚ := (l.take b).drop a

/-! ## The Lorenz-map peak-extraction cell of `LorenzEquations.ipynb`

Source:
  dZ = np.zeros(Z.shape)
  dZ[1:-2] = Z[2:-1] - Z[0:-3]
  icross = np.nonzero(dZ[:-2]*dZ[1:-1] <= 0)
  Zextreme = Z[icross]
  meanZ = np.mean(Z)
  Zn = Zextreme[Zextreme > meanZ]

For an array of length `n` the negative slice bounds resolve as
`-1 ↦ n-1`, `-2 ↦ n-2`, `-3 ↦ n-3` (clamped at 0). -/

/-- `dZ = np.zeros(Z.shape); dZ[1:-2] = Z[2:-1] - Z[0:-3]`: a zero array
of the same length with the centered differences spliced into positions
`1 .. n-3`. -/
def dZ (Z : List ℚ) : List ℚ :=
  let n := Z.length
  let zeros := List.replicate n (0 : ℚ)
  let payload := List.zipWith (fun a b => a - b) (slice Z 2 (n - 1)) (slice Z 0 (n - 3))
  (zeros.take 1) ++ payload ++ zeros.drop (1 + payload.length)

/-- `icross = np.nonzero(dZ[:-2]*dZ[1:-1] <= 0)`: the list of indices of
the elementwise product `dZ[:-2] * dZ[1:-1]` at which it is `≤ 0`. -/
def icross (Z : List ℚ) : List ℕ :=
  let d := dZ Z
  let n := d.length
  let prod := List.zipWith (fun a b => a * b) (slice d 0 (n - 2)) (slice d 1 (n - 1))
  (List.range prod.length).filter (fun i => decide (prod.getD i 0 ≤ 0))

/-- `Zextreme = Z[icross]`: numpy fancy indexing of `Z` by the index list
`icross`. -/
def Zextreme (Z : List ℚ) : List ℚ := (icross Z).map (fun i => Z.getD i 0)

/-- `meanZ = np.mean(Z)`. -/
def meanZ (Z : List ℚ) : ℚ := Z.sum / (Z.length : ℚ)

/-- `Zn = Zextreme[Zextreme > meanZ]`: boolean-mask the extremes by being
strictly greater than the mean. -/
def Zn (Z : List ℚ) : List ℚ := (Zextreme Z).filter (fun v => decide (meanZ Z < v))

/-- A sample of the series `Z` at index `i` is a local maximum when it is
at least as large as each neighbouring sample that exists. -/
def isLocalMax (Z : List ℚ) (i : ℕ) : Prop :=
  (1 ≤ i → Z.getD (i - 1) 0 ≤ Z.getD i 0) ∧
  (i + 1 < Z.length → Z.getD (i + 1) 0 ≤ Z.getD i 0)

instance (Z : List ℚ) (i : ℕ) : Decidable (isLocalMax Z i) := by
  unfold isLocalMax; infer_instance

/-! ## The `Lorenz` right-hand side of `LorenzEquations.ipynb`

Source:
  def Lorenz(state,t,sigma,r,b):
    x = state[0]
    y = state[1]
    z = state[2]
    xd = sigma * (y-x)
    yd = (r-z)*x - y
    zd = x*y - b*z
    return [xd, yd, zd]

The three reads `state[0] .. state[2]` are fallible Python indexing, so
the call is embedded in `Option`; the pair returned by `LorenzCall` is
(returned list, the state array as it stands after the call), which
records that no statement of the body assigns into `state`. -/

/-- The call `Lorenz(state, t, sigma, r, b)`: unpack the state vector by
indexing, compute the three derivatives, return them as a fresh list,
leaving the argument array as it was. -/
def LorenzCall (state : List ℚ) (t sigma r b : ℚ) : Option (List ℚ × List ℚ) := do
  let x ← state[0]?
  let y ← state[1]?
  let z ← state[2]?
  let xd := sigma * (y - x)
  let yd := (r - z) * x - y
  let zd := x * y - b * z
  pure ([xd, yd, zd], state)

/-- The value `Lorenz(state, t, sigma, r, b)` returns (or `none` when the
indexing of `state` raises). -/
def Lorenz (state : List ℚ) (t sigma r b : ℚ) : Option (List ℚ) :=
  (LorenzCall state t sigma r b).map Prod.fst

/-! ## `SolveLorenz` and the external integrator

`SolveLorenz` is `odeint(lambda state,t: Lorenz(state,t,sigma,r,b),
state0, t)`. -/

/-- Modelled from the spec: `scipy.integrate.odeint` is the external
"general-purpose ODE solver" the spec says the notebook merely invokes,
so its body is not in this repository. It is modelled by its documented
interface — one output row per entry of the time array, the first row
being the initial condition, later rows produced by stepping the
right-hand side between consecutive time points (a fixed-step explicit
Euler stand-in). A failure of the user right-hand side propagates.
`odeintAux` integrates over the remaining time points given the current
state and time. -/
def odeintAux (f : List ℚ → ℚ → Option (List ℚ)) :
    List ℚ → ℚ → List ℚ → Option (List (List ℚ))
  | _, _, [] => pure []
  | y, tprev, tk :: rest => do
      let d ← f y tprev
      let y1 := List.zipWith (fun a v => a + (tk - tprev) * v) y d
      let tail ← odeintAux f y1 tk rest
      pure (y1 :: tail)

/-- Modelled from the spec: the integrator entry point, see `odeintAux`.
Returns one state row per entry of `t`, the first row being `y0`. -/
def odeint (f : List ℚ → ℚ → Option (List ℚ)) (y0 : List ℚ) (t : List ℚ) :
    Option (List (List ℚ)) :=
  match t with
  | [] => pure []
  | t0 :: rest => do
      let tail ← odeintAux f y0 t0 rest
      pure (y0 :: tail)

/-- `SolveLorenz(state0, t, sigma, r, b)`: integrate the Lorenz
right-hand side from `state0` over the time array `t`. -/
def SolveLorenz (state0 : List ℚ) (t : List ℚ) (sigma r b : ℚ) :
    Option (List (List ℚ)) :=
  odeint (fun state tt => Lorenz state tt sigma r b) state0 t

/-! ## `bifurcation_plot` of `Bifurcations-checkpoint.ipynb`

Source:
  def bifurcation_plot(f,f_x,r,x,rlabel=r):
      R,X = numpy.meshgrid(r,x)
      plt.figure()
      CS = plt.contour(R,X,f(R,X),[0],colors=k)
      plt.clf()
      c0 = CS.collections[0]
      for path in c0.get_paths():
          vertices = path.vertices
          vr = vertices[:,0]
          vx = vertices[:,1]
          mask = numpy.sign(f_x(vr,vx))
          stable = mask < 0.
          unstable = mask > 0.
          plt.plot(vr[stable],vx[stable],b)        [solid style]
          plt.hold(True)
          plt.plot(vr[unstable],vx[unstable],b--)  [dashed style]
      plt.xlabel(...); plt.ylabel(...); plt.legend(...)
      plt.xlim(r[0],r[-1])
      plt.ylim(x[0],x[-1])

The zero-contour paths come back from the contour
routine, so they are a parameter of the embedding (a list of
(vr, vx) vertex-column pairs). Calls into the plotting library are
recorded as an append-only command trace, the only state the function
writes. -/

/-- `numpy.sign`: `-1`, `0` or `1` by the sign of the argument. -/
def npsign (v : ℚ) : ℚ := if v < 0 then -1 else if v = 0 then 0 else 1

/-- The elementwise mask `numpy.sign(f_x(vr, vx))` over the two vertex
columns of one contour path. -/
def signMask (f_x : ℚ → ℚ → ℚ) (vr vx : List ℚ) : List ℚ :=
  List.zipWith (fun a b => npsign (f_x a b)) vr vx

/-- Numpy boolean-mask indexing `l[m]`: keep the elements of `l` whose
mask entry holds. -/
def boolMask (l : List ℚ) (m : List Bool) : List ℚ :=
  (l.zip m).filterMap (fun p => if p.2 then some p.1 else none)

/-- The point list `zip(vr[stable], vx[stable])` that
the solid-style plot call draws for one path, where
`stable = numpy.sign(f_x(vr,vx)) < 0`. -/
def stablePts (f_x : ℚ → ℚ → ℚ) (vr vx : List ℚ) : List (ℚ × ℚ) :=
  let m := (signMask f_x vr vx).map (fun s => decide (s < 0))
  (boolMask vr m).zip (boolMask vx m)

/-- The point list `zip(vr[unstable], vx[unstable])` that
the dashed-style plot call draws for one path, where
`unstable = numpy.sign(f_x(vr,vx)) > 0`. -/
def unstablePts (f_x : ℚ → ℚ → ℚ) (vr vx : List ℚ) : List (ℚ × ℚ) :=
  let m := (signMask f_x vr vx).map (fun s => decide (0 < s))
  (boolMask vr m).zip (boolMask vx m)

/-- One call into the plotting library, recorded abstractly. -/
inductive PlotCmd where
  | figure
  | contour
  | clf
  | plotPts (pts : List (ℚ × ℚ)) (dashed : Bool)
  | hold
  | xlabel
  | ylabel
  | legend
  | xlim (a b : ℚ)
  | ylim (a b : ℚ)
deriving DecidableEq

/-- The environment a `bifurcation_plot` call runs in: its four data
arguments and the plotting figure state (as the trace of library calls
made so far). -/
structure Env where
  f : ℚ → ℚ → ℚ
  f_x : ℚ → ℚ → ℚ
  r : List ℚ
  x : List ℚ
  plot : List PlotCmd

/-- The call `bifurcation_plot(f, f_x, r, x)`, threading the environment:
set up the contour, draw the stable and the unstable branch of each
contour path, label, and set the axis limits from `r[0], r[-1], x[0],
x[-1]` (fallible indexing, hence `Option`). `paths` is the list of
vertex-column pairs of the extracted zero-contour paths. -/
def bifurcation_plot (paths : List (List ℚ × List ℚ)) (env : Env) : Option Env := do
  let header := [PlotCmd.figure, PlotCmd.contour, PlotCmd.clf]
  let body := paths.flatMap (fun p =>
    [PlotCmd.plotPts (stablePts env.f_x p.1 p.2) false, PlotCmd.hold,
     PlotCmd.plotPts (unstablePts env.f_x p.1 p.2) true])
  let r0 ← env.r[0]?
  let r1 ← env.r.getLast?
  let x0 ← env.x[0]?
  let x1 ← env.x.getLast?
  let footer := [PlotCmd.xlabel, PlotCmd.ylabel, PlotCmd.legend,
    PlotCmd.xlim r0 r1, PlotCmd.ylim x0 x1]
  pure { env with plot := env.plot ++ header ++ body ++ footer }

/-- A concrete environment: constant-zero `f` and `f_x`, one-point
domain arrays, empty figure. -/
def envA : Env := ⟨fun _ _ => 0, fun _ _ => 0, [1], [2], []⟩

/-- The environment `bifurcation_plot` with no contour paths leaves
behind when run in `envA`. -/
def envB : Env := ⟨fun _ _ => 0, fun _ _ => 0, [1], [2],
  [.figure, .contour, .clf, .xlabel, .ylabel, .legend, .xlim 1 1, .ylim 2 2]⟩

/-! ## Theorems -/

/-- C1: `Lorenz` returns the right-hand side of the classical Lorenz
equations: on state `[x, y, z]` it returns
`[sigma*(y-x), r*x - y - x*z, x*y - b*z]`; the second component as coded,
`(r-z)*x - y`, equals the classical `r*x - y - x*z` in exact
arithmetic. -/
theorem C1_Lorenz_classical_rhs (x y z t sigma r b : ℚ) :
    Lorenz [x, y, z] t sigma r b =
      some [sigma * (y - x), r * x - y - x * z, x * y - b * z] := by
  simp only [Lorenz, LorenzCall, List.getElem?_cons_zero, Option.bind_eq_bind,
    Option.some_bind, List.getElem?_cons_succ, Option.map_some]
  norm_num
  ring

/-- C10: `Lorenz` is autonomous: the time argument is never read, so the
result at any two times agrees. -/
theorem C10_Lorenz_autonomous (state : List ℚ) (t1 t2 sigma r b : ℚ) :
    Lorenz state t1 sigma r b = Lorenz state t2 sigma r b := rfl

/-- C5: no input validation and no handled error anywhere: a `Lorenz`
call succeeds exactly when the state has at least the 3 components it
indexes, and a `bifurcation_plot` call succeeds exactly when the `r` and
`x` arrays it indexes at `0` and `-1` are non-empty; in every other case
the sole failure mode is the raw out-of-bounds indexing itself (`none`),
never a validated or recoverable error. -/
theorem C5_no_validation :
    (∀ (state : List ℚ) (t sigma r b : ℚ),
        (Lorenz state t sigma r b).isSome ↔ 3 ≤ state.length) ∧
    (∀ (paths : List (List ℚ × List ℚ)) (env : Env),
        (bifurcation_plot paths env).isSome ↔ (env.r ≠ [] ∧ env.x ≠ [])) := by
  constructor
  · intro state t sigma r b
    rcases state with _ | ⟨a, _ | ⟨c, _ | ⟨d, rest⟩⟩⟩ <;>
      simp [Lorenz, LorenzCall]
  · intro paths env
    rcases hr : env.r with _ | ⟨a, ra⟩ <;> rcases hx : env.x with _ | ⟨c, xa⟩ <;>
      simp [bifurcation_plot, hr, hx]
    obtain ⟨v, hv⟩ := Option.isSome_iff_exists.mp
      (List.getLast?_isSome.mpr (List.cons_ne_nil a ra))
    obtain ⟨w, hw⟩ := Option.isSome_iff_exists.mp
      (List.getLast?_isSome.mpr (List.cons_ne_nil c xa))
    simp [hv, hw]

/-- `numpy.sign v < 0` exactly when `v < 0`. -/
theorem npsign_lt_zero (v : ℚ) : npsign v < 0 ↔ v < 0 := by
  unfold npsign
  split_ifs with h1 h2
  · simpa using h1
  · subst h2; norm_num
  · constructor
    · intro hc; norm_num at hc
    · intro hc; exact absurd hc h1

/-- `numpy.sign v > 0` exactly when `v > 0`. -/
theorem zero_lt_npsign (v : ℚ) : 0 < npsign v ↔ 0 < v := by
  unfold npsign
  split_ifs with h1 h2
  · constructor
    · intro hc; norm_num at hc
    · intro hc; linarith
  · subst h2; norm_num
  · have hv : 0 < v := lt_of_le_of_ne (not_lt.mp h1) (Ne.symm h2)
    constructor
    · intro _; exact hv
    · intro _; norm_num

/-- Boolean-mask indexing distributes over cons. -/
theorem boolMask_cons (a : ℚ) (l : List ℚ) (b : Bool) (m : List Bool) :
    boolMask (a :: l) (b :: m) = (if b then [a] else []) ++ boolMask l m := by
  cases b <;> simp [boolMask]

/-- Masking both vertex columns by the same sign mask and re-pairing is
filtering the paired vertices by the sign condition. -/
theorem stablePts_eq_filter (f_x : ℚ → ℚ → ℚ) (vr vx : List ℚ) :
    stablePts f_x vr vx =
      (vr.zip vx).filter (fun p => decide (npsign (f_x p.1 p.2) < 0)) := by
  induction vr generalizing vx with
  | nil => simp [stablePts, signMask, boolMask]
  | cons a vr ih =>
    cases vx with
    | nil => simp [stablePts, signMask, boolMask]
    | cons c vx =>
      have := ih vx
      simp only [stablePts, signMask] at this ⊢
      simp only [List.zipWith_cons_cons, List.map_cons, boolMask_cons]
      by_cases h : npsign (f_x a c) < 0 <;>
        (simp [h, List.filter, List.zip]; simpa [List.zip] using this)

/-- Companion of `stablePts_eq_filter` for the unstable branch. -/
theorem unstablePts_eq_filter (f_x : ℚ → ℚ → ℚ) (vr vx : List ℚ) :
    unstablePts f_x vr vx =
      (vr.zip vx).filter (fun p => decide (0 < npsign (f_x p.1 p.2))) := by
  induction vr generalizing vx with
  | nil => simp [unstablePts, signMask, boolMask]
  | cons a vr ih =>
    cases vx with
    | nil => simp [unstablePts, signMask, boolMask]
    | cons c vx =>
      have := ih vx
      simp only [unstablePts, signMask] at this ⊢
      simp only [List.zipWith_cons_cons, List.map_cons, boolMask_cons]
      by_cases h : 0 < npsign (f_x a c) <;>
        (simp [h, List.filter, List.zip]; simpa [List.zip] using this)

/-- C3: `bifurcation_plot` annotates each zero-contour vertex by
stability exactly as the masks say: a vertex of a path is on the drawn
stable branch iff `f_x` is negative there, and on the drawn unstable
branch iff `f_x` is positive there. -/
theorem C3_branch_masks (f_x : ℚ → ℚ → ℚ) (vr vx : List ℚ)
    (p : ℚ × ℚ) (hp : p ∈ vr.zip vx) :
    (p ∈ stablePts f_x vr vx ↔ f_x p.1 p.2 < 0) ∧
    (p ∈ unstablePts f_x vr vx ↔ 0 < f_x p.1 p.2) := by
  rw [stablePts_eq_filter, unstablePts_eq_filter]
  simp [List.mem_filter, hp, npsign_lt_zero, zero_lt_npsign]

/-- Witness for C3 at `f_x(a,b) = a - b`, one vertex `(1, 2)`. -/
theorem C3_branch_masks_witness :
    ((1 : ℚ), (2 : ℚ)) ∈ ([1] : List ℚ).zip [2] ∧
    ((((1 : ℚ), (2 : ℚ)) ∈ stablePts (fun a b => a - b) [1] [2] ↔
        (1 : ℚ) - 2 < 0) ∧
     (((1 : ℚ), (2 : ℚ)) ∈ unstablePts (fun a b => a - b) [1] [2] ↔
        0 < (1 : ℚ) - 2)) :=
  ⟨by simp, C3_branch_masks (fun a b => a - b) [1] [2] (1, 2) (by simp)⟩

/-- C9: a contour vertex at which `f_x` is exactly `0` has sign mask `0`,
satisfies neither branch mask, and is drawn on neither branch. -/
theorem C9_zero_derivative_dropped (f_x : ℚ → ℚ → ℚ) (vr vx : List ℚ)
    (a b : ℚ) (h : f_x a b = 0) :
    (a, b) ∉ stablePts f_x vr vx ∧ (a, b) ∉ unstablePts f_x vr vx := by
  rw [stablePts_eq_filter, unstablePts_eq_filter]
  simp [List.mem_filter, h, npsign_lt_zero, zero_lt_npsign]

/-- Witness for C9 at the constant-zero `f_x` and vertex `(1, 2)`. -/
theorem C9_zero_derivative_dropped_witness :
    (fun _ _ => (0 : ℚ)) 1 2 = 0 ∧
    (((1 : ℚ), (2 : ℚ)) ∉ stablePts (fun _ _ => 0) [1] [2] ∧
     ((1 : ℚ), (2 : ℚ)) ∉ unstablePts (fun _ _ => 0) [1] [2]) :=
  ⟨rfl, C9_zero_derivative_dropped (fun _ _ => 0) [1] [2] 1 2 rfl⟩

/-- Length of a slice. -/
theorem slice_length (l : List ℚ) (a b : ℕ) :
    (slice l a b).length = min b l.length - a := by
  simp [slice]

/-- The spliced derivative array has the length of `Z`. -/
theorem dZ_length (Z : List ℚ) : (dZ Z).length = Z.length := by
  simp [dZ, slice]
  omega

/-- Pointwise reading of the slice assignment
`dZ[1:-2] = Z[2:-1] - Z[0:-3]`: entry `i` of `dZ` is the centered
difference `Z[i+1] - Z[i-1]` for `1 ≤ i ≤ len(Z)-3` and `0` at the
remaining boundary positions. -/
theorem dZ_getD (Z : List ℚ) (i : ℕ) :
    (dZ Z).getD i 0 =
      if 1 ≤ i ∧ i + 3 ≤ Z.length then Z.getD (i + 1) 0 - Z.getD (i - 1) 0
      else 0 := by
  by_cases h : 1 ≤ i ∧ i + 3 ≤ Z.length
  · obtain ⟨h1, h3⟩ := h
    have e1 : Z[i+1]? = some (Z.getD (i+1) 0) := by
      rw [List.getD_eq_getElem?_getD,
        List.getElem?_eq_getElem (show i + 1 < Z.length by omega)]
      rfl
    have e2 : Z[i-1]? = some (Z.getD (i-1) 0) := by
      rw [List.getD_eq_getElem?_getD,
        List.getElem?_eq_getElem (show i - 1 < Z.length by omega)]
      rfl
    rw [if_pos ⟨h1, h3⟩]
    rw [List.getD_eq_getElem?_getD]
    unfold dZ
    rw [List.getElem?_append]
    rw [if_pos (by simp [slice_length]; omega)]
    rw [List.getElem?_append]
    rw [if_neg (by simp; omega)]
    simp only [List.length_take, List.length_replicate]
    rw [List.getElem?_zipWith]
    simp only [slice, List.drop_zero, List.getElem?_drop, List.getElem?_take]
    rw [show 2 + (i - min 1 Z.length) = i + 1 by omega]
    rw [show i - min 1 Z.length = i - 1 by omega]
    rw [if_pos (by omega), if_pos (by omega)]
    rw [e1, e2]
    simp
  · rw [if_neg h]
    push_neg at h
    rw [List.getD_eq_getElem?_getD]
    unfold dZ
    rw [List.getElem?_append]
    split_ifs with h4
    · rw [List.getElem?_append]
      split_ifs with h5
      · simp only [List.length_take, List.length_replicate] at h5
        rw [List.getElem?_take, if_pos (by omega), List.getElem?_replicate]
        split_ifs <;> simp
      · exfalso
        simp only [List.length_append, List.length_take, List.length_replicate,
          List.length_zipWith, slice_length] at h4 h5
        omega
    · simp only [List.getElem?_drop, List.getElem?_replicate]
      split_ifs <;> simp

/-- Membership characterization of the sign-crossing index list: the
code examines only indices `i ≤ len(Z) - 3` (the length of the product
array `dZ[:-2] * dZ[1:-1]`), and among those keeps exactly the ones with
`dZ[i] * dZ[i+1] ≤ 0`. -/
theorem mem_icross (Z : List ℚ) (i : ℕ) :
    i ∈ icross Z ↔
      i + 2 < Z.length ∧ (dZ Z).getD i 0 * (dZ Z).getD (i + 1) 0 ≤ 0 := by
  have hn := dZ_length Z
  by_cases hi : i + 2 < Z.length
  · have e1 : (dZ Z)[i]? = some ((dZ Z).getD i 0) := by
      rw [List.getD_eq_getElem?_getD,
        List.getElem?_eq_getElem (show i < (dZ Z).length by omega)]
      rfl
    have e2 : (dZ Z)[i+1]? = some ((dZ Z).getD (i+1) 0) := by
      rw [List.getD_eq_getElem?_getD,
        List.getElem?_eq_getElem (show i + 1 < (dZ Z).length by omega)]
      rfl
    unfold icross
    rw [List.mem_filter, List.mem_range]
    have eprod : (List.zipWith (fun a b => a * b)
        (slice (dZ Z) 0 ((dZ Z).length - 2))
        (slice (dZ Z) 1 ((dZ Z).length - 1))).getD i 0
        = (dZ Z).getD i 0 * (dZ Z).getD (i + 1) 0 := by
      rw [List.getD_eq_getElem?_getD, List.getElem?_zipWith]
      simp only [slice, List.drop_zero, List.getElem?_drop, List.getElem?_take]
      rw [if_pos (show i < (dZ Z).length - 2 by omega),
        show 1 + i = i + 1 by omega,
        if_pos (show i + 1 < (dZ Z).length - 1 by omega)]
      rw [e1, e2]
      rfl
    rw [eprod]
    simp only [List.length_zipWith, slice_length, decide_eq_true_eq]
    constructor
    · rintro ⟨_, hq⟩; exact ⟨hi, hq⟩
    · rintro ⟨_, hq⟩; exact ⟨by omega, hq⟩
  · unfold icross
    rw [List.mem_filter, List.mem_range]
    simp only [List.length_zipWith, slice_length]
    constructor
    · rintro ⟨hlt, _⟩; exact absurd (by omega : i + 2 < Z.length) hi
    · rintro ⟨hq, _⟩; exact absurd hq hi

/-- C4 counterexample: for `Z = [5,6,0,0,0]` the index `3 = len(Z)-2`
has both `dZ[3]` and `dZ[4]` defined and `dZ[3]*dZ[4] = 0 ≤ 0` (the
boundary entries are zero), yet `3` is not selected into `icross`: the
product array `dZ[:-2]*dZ[1:-1]` stops at index `len(Z)-3`. -/
theorem C4_boundary_index_not_selected :
    3 + 1 < ([5,6,0,0,0] : List ℚ).length ∧
    (dZ [5,6,0,0,0]).getD 3 0 * (dZ [5,6,0,0,0]).getD 4 0 ≤ 0 ∧
    3 ∉ icross [5,6,0,0,0] := by
  refine ⟨by norm_num, ?_, ?_⟩ <;>
    norm_num [dZ, slice, List.replicate, icross, List.range, List.filter,
      List.getD]

/-- C4 as amended: `dZ[i] = Z[i+1] - Z[i-1]` for `1 ≤ i ≤ len(Z)-3` and
`0` at the remaining boundary indices; the selection keeps exactly the
indices `i` in the range `0 ≤ i ≤ len(Z)-3` with `dZ[i]*dZ[i+1] ≤ 0`
(not every index at which the product is `≤ 0`); and from the `Z` values
at those indices exactly the ones strictly greater than `mean(Z)` are
kept. -/
theorem C4_peak_extraction_steps (Z : List ℚ) :
    (∀ i, (dZ Z).getD i 0 =
      if 1 ≤ i ∧ i + 3 ≤ Z.length then Z.getD (i + 1) 0 - Z.getD (i - 1) 0
      else 0) ∧
    (∀ i, i ∈ icross Z ↔
      i + 2 < Z.length ∧ (dZ Z).getD i 0 * (dZ Z).getD (i + 1) 0 ≤ 0) ∧
    Zextreme Z = (icross Z).map (fun i => Z.getD i 0) ∧
    Zn Z = (Zextreme Z).filter (fun v => decide (meanZ Z < v)) :=
  ⟨dZ_getD Z, mem_icross Z, rfl, rfl⟩

/-- C8: for every series of length at least 4 the boundary zeros of `dZ`
make the test `dZ[0]*dZ[1] ≤ 0` hold, so index `0` is always in
`icross`, `Z[0]` is always in `Zextreme`, and `Z[0]` enters `Zn`
whenever it exceeds the mean. -/
theorem C8_first_sample_always_selected (Z : List ℚ) (h : 4 ≤ Z.length) :
    (dZ Z).getD 0 0 * (dZ Z).getD 1 0 ≤ 0 ∧ 0 ∈ icross Z ∧
    Z.getD 0 0 ∈ Zextreme Z ∧ (meanZ Z < Z.getD 0 0 → Z.getD 0 0 ∈ Zn Z) := by
  have h0 : (dZ Z).getD 0 0 = 0 := by rw [dZ_getD]; norm_num
  have hprod : (dZ Z).getD 0 0 * (dZ Z).getD 1 0 ≤ 0 := by rw [h0]; simp
  have hmem : 0 ∈ icross Z := (mem_icross Z 0).mpr ⟨by omega, hprod⟩
  have hext : Z.getD 0 0 ∈ Zextreme Z := List.mem_map.mpr ⟨0, hmem, rfl⟩
  exact ⟨hprod, hmem, hext,
    fun hgt => List.mem_filter.mpr ⟨hext, by simpa using hgt⟩⟩

/-- Witness for C8 at the series `[5,6,0,0,0]`. -/
theorem C8_first_sample_always_selected_witness :
    4 ≤ ([5,6,0,0,0] : List ℚ).length ∧
    ((dZ [5,6,0,0,0]).getD 0 0 * (dZ [5,6,0,0,0]).getD 1 0 ≤ 0 ∧
     0 ∈ icross [5,6,0,0,0] ∧
     ([5,6,0,0,0] : List ℚ).getD 0 0 ∈ Zextreme [5,6,0,0,0] ∧
     (meanZ [5,6,0,0,0] < ([5,6,0,0,0] : List ℚ).getD 0 0 →
       ([5,6,0,0,0] : List ℚ).getD 0 0 ∈ Zn [5,6,0,0,0])) :=
  ⟨by norm_num, C8_first_sample_always_selected _ (by norm_num)⟩

/-- C2 counterexample: for `Z = [5,6,0,0,0]` the retained list `Zn`
contains the value `5` (the always-selected first sample, which exceeds
the mean `11/5`), but `5` is not a local maximum anywhere in `Z`: its
only occurrence is at index 0, whose right neighbour is `6 > 5`. -/
theorem C2_not_all_local_maxima :
    ¬ ∀ v ∈ Zn [5,6,0,0,0], ∃ i, i < ([5,6,0,0,0] : List ℚ).length ∧
        ([5,6,0,0,0] : List ℚ).getD i 0 = v ∧ isLocalMax [5,6,0,0,0] i := by
  intro hall
  have h5 : (5 : ℚ) ∈ Zn [5,6,0,0,0] := by
    norm_num [Zn, Zextreme, icross, dZ, slice, List.replicate, meanZ,
      List.range, List.filter]
  obtain ⟨i, hi, hv, hmax⟩ := hall 5 h5
  simp only [List.length_cons, List.length_nil] at hi
  interval_cases i <;>
    simp [isLocalMax, List.getD] at hv hmax <;> norm_num at hv hmax

/-- C2 as amended: every value retained in `Zn` is strictly greater than
the mean of `Z` and is the value of `Z` at some sign-crossing index of
`icross`; it need not be a local maximum of the series. -/
theorem C2_selected_values_characterized (Z : List ℚ) (v : ℚ)
    (hv : v ∈ Zn Z) :
    meanZ Z < v ∧ ∃ i ∈ icross Z, Z.getD i 0 = v := by
  unfold Zn at hv
  rw [List.mem_filter] at hv
  obtain ⟨hmem, hgt⟩ := hv
  refine ⟨by simpa using hgt, ?_⟩
  unfold Zextreme at hmem
  rw [List.mem_map] at hmem
  obtain ⟨i, hi, hieq⟩ := hmem
  exact ⟨i, hi, hieq⟩

/-- Witness for the amended C2 at the series `[5,6,0,0,0]` and the
retained value `5`. -/
theorem C2_selected_values_characterized_witness :
    (5 : ℚ) ∈ Zn [5,6,0,0,0] ∧
    (meanZ [5,6,0,0,0] < 5 ∧ ∃ i ∈ icross [5,6,0,0,0],
      ([5,6,0,0,0] : List ℚ).getD i 0 = 5) :=
  ⟨by norm_num [Zn, Zextreme, icross, dZ, slice, List.replicate, meanZ,
      List.range, List.filter],
   C2_selected_values_characterized _ 5
     (by norm_num [Zn, Zextreme, icross, dZ, slice, List.replicate, meanZ,
        List.range, List.filter])⟩

/-- C6: neither function mutates its inputs: a successful `LorenzCall`
leaves its `state` array exactly as it was (it returns a freshly built
list), and a successful `bifurcation_plot` leaves `f`, `f_x`, `r` and
`x` unchanged — the only state it touches is the plotting figure state,
to which it appends its drawing calls. -/
theorem C6_no_input_mutation (state : List ℚ) (t sigma r b : ℚ)
    (p : List ℚ × List ℚ) (hL : LorenzCall state t sigma r b = some p)
    (paths : List (List ℚ × List ℚ)) (env env' : Env)
    (hB : bifurcation_plot paths env = some env') :
    p.2 = state ∧ env'.f = env.f ∧ env'.f_x = env.f_x ∧ env'.r = env.r ∧
      env'.x = env.x ∧ ∃ new, env'.plot = env.plot ++ new := by
  have hstate : p.2 = state := by
    rcases state with _ | ⟨x, _ | ⟨y, _ | ⟨z, rest⟩⟩⟩ <;>
      simp [LorenzCall] at hL
    rw [← hL]
  refine ⟨hstate, ?_⟩
  rcases hr0 : env.r[0]? with _ | r0 <;>
    rcases hr1 : env.r.getLast? with _ | r1 <;>
    rcases hx0 : env.x[0]? with _ | x0 <;>
    rcases hx1 : env.x.getLast? with _ | x1 <;>
    simp [bifurcation_plot, hr0, hr1, hx0, hx1] at hB
  rw [← hB]
  exact ⟨rfl, rfl, rfl, rfl, _, rfl⟩

/-- Witness for C6 at `state = [1,2,3]` and the one-point environment
`envA` with no contour paths. -/
theorem C6_no_input_mutation_witness :
    LorenzCall [1, 2, 3] 0 1 1 1 =
      some ([1 * (2 - 1), (1 - 3) * 1 - 2, 1 * 2 - 1 * 3], [1, 2, 3]) ∧
    bifurcation_plot [] envA = some envB ∧
    (([1 * (2 - 1), (1 - 3) * 1 - 2, 1 * 2 - 1 * 3], ([1, 2, 3] : List ℚ)).2
        = [1, 2, 3] ∧
      envB.f = envA.f ∧ envB.f_x = envA.f_x ∧ envB.r = envA.r ∧
      envB.x = envA.x ∧ ∃ new, envB.plot = envA.plot ++ new) :=
  ⟨rfl, rfl,
    C6_no_input_mutation [1, 2, 3] 0 1 1 1 _ rfl [] envA envB rfl⟩

/-- A right-hand-side call on a 3-component state succeeds and returns a
3-component derivative. -/
theorem LorenzLen (s : List ℚ) (tt sigma r b : ℚ) (h : s.length = 3) :
    ∃ d, Lorenz s tt sigma r b = some d ∧ d.length = 3 := by
  rcases s with _ | ⟨x, _ | ⟨y, _ | ⟨z, rest⟩⟩⟩ <;> simp at h
  refine ⟨[sigma * (y - x), (r - z) * x - y, x * y - b * z], ?_, by simp⟩
  simp [Lorenz, LorenzCall]

/-- Stepping the modelled integrator from a 3-component state yields one
3-component row per remaining time point. -/
theorem odeintAux_shape (sigma r b : ℚ) (ts : List ℚ) :
    ∀ (y : List ℚ) (tp : ℚ), y.length = 3 →
      ∃ rows, odeintAux (fun s tt => Lorenz s tt sigma r b) y tp ts = some rows ∧
        rows.length = ts.length ∧ ∀ row ∈ rows, row.length = 3 := by
  induction ts with
  | nil => intro y tp _; exact ⟨[], rfl, rfl, by simp⟩
  | cons tk rest ih =>
    intro y tp hy
    obtain ⟨d, hd, hdl⟩ := LorenzLen y tp sigma r b hy
    have hy1 : (List.zipWith (fun a v => a + (tk - tp) * v) y d).length = 3 := by
      simp [List.length_zipWith, hy, hdl]
    obtain ⟨rows, hrows, hrl, hall⟩ := ih _ tk hy1
    refine ⟨List.zipWith (fun a v => a + (tk - tp) * v) y d :: rows, ?_,
      by simp [hrl], ?_⟩
    · simp [odeintAux, hd, hrows]
    · intro row hrow
      rcases List.mem_cons.mp hrow with h | h
      · rw [h]; exact hy1
      · exact hall row h

/-- C7: for every 3-component initial condition and non-empty time
array, `SolveLorenz` returns a trajectory with exactly one 3-component
state per time point, whose first row is the initial condition. -/
theorem C7_SolveLorenz_shape (state0 : List ℚ) (t : List ℚ) (sigma r b : ℚ)
    (h3 : state0.length = 3) (hne : t ≠ []) :
    ∃ traj, SolveLorenz state0 t sigma r b = some traj ∧
      traj.length = t.length ∧ traj.head? = some state0 ∧
      ∀ row ∈ traj, row.length = 3 := by
  rcases t with _ | ⟨t0, rest⟩
  · exact absurd rfl hne
  obtain ⟨rows, hrows, hrl, hall⟩ := odeintAux_shape sigma r b rest state0 t0 h3
  refine ⟨state0 :: rows, ?_, by simp [hrl], by simp, ?_⟩
  · simp [SolveLorenz, odeint, hrows]
  · intro row hrow
    rcases List.mem_cons.mp hrow with h | h
    · rw [h]; exact h3
    · exact hall row h

/-- Witness for C7 at the notebook initial condition `[2,3,4]` and the
notebook parameters. -/
theorem C7_SolveLorenz_shape_witness :
    ([2, 3, 4] : List ℚ).length = 3 ∧ ([0] : List ℚ) ≠ [] ∧
    (∃ traj, SolveLorenz [2, 3, 4] [0] 10 28 (8 / 3) = some traj ∧
      traj.length = ([0] : List ℚ).length ∧ traj.head? = some [2, 3, 4] ∧
      ∀ row ∈ traj, row.length = 3) :=
  ⟨rfl, by simp, C7_SolveLorenz_shape [2, 3, 4] [0] 10 28 (8 / 3) rfl (by simp)⟩

end DSys
